import Mathlib

/-
  Verification development for the curve_extraction repository.

  The C++ sources embedded here:
    - src/matlab/library/curve_segmentation_mex.cpp  (grid indexing, settings
      checks, 2-D torsion downgrade, lifting selection)
    - src/matlab/library/edgepair_segmentaion.cpp    (edge-pair lifted graph:
      state decoding, start/end set construction, neighbor expansion, path
      decoding)
    - src/matlab/library/local_optimization_mex.cpp  (local refinement:
      clamping, fixed endpoints)

  Conventions of the embedding:
    - C++ int values are modelled as Lean Int; C++ integer division and
      modulus (truncation toward zero) are modelled with Int.tdiv and
      Int.tmod.
    - C++ double and float cost values are modelled as exact rationals;
      floating-point rounding is not modelled (the claims below are about
      the structure of the computed sums, not about rounding).
    - The cost functors (length_cost_functor, curvature_cost_functor,
      torsion_cost_functor) and the data term (PieceWiseConstant), declared
      in curve_segmentation.h, are not part of src/; they enter the
      expansion only as opaque-to-us functions, so they are abstracted as
      parameters in a Costs bundle.
    - Out-of-range access into the connectivity matrix is undefined
      behaviour in C++; the embedding returns a default row there.  No
      theorem below depends on that default.
-/

namespace CurveExtraction

/-- A grid point (x, y, z), as in Mesh::Point with integer coordinates. -/
abbrev Pt := Int × Int × Int

/-- Componentwise addition of a point and an offset. -/
def padd (p d : Pt) : Pt := (p.1 + d.1, p.2.1 + d.2.1, p.2.2 + d.2.2)

/-- The grid dimensions (the globals M, N, O of curve_segmentation_mex.cpp). -/
structure Grid where
  M : Int
  N : Int
  O : Int
deriving DecidableEq

/-- numel of the mesh map: M * N * O voxels. -/
def numel (g : Grid) : Int := g.M * g.N * g.O

/-- curve_segmentation_mex.cpp, validind: a coordinate triple is valid iff
each coordinate is between 0 and its dimension minus one. -/
def validind (g : Grid) (p : Pt) : Bool :=
  !(p.1 > g.M - 1 || p.2.1 > g.N - 1 || p.2.2 > g.O - 1 ||
    p.1 < 0 || p.2.1 < 0 || p.2.2 < 0)

/-- curve_segmentation_mex.cpp, sub2ind: column-major linear index
x + y*M + z*M*N. -/
def sub2ind (g : Grid) (p : Pt) : Int :=
  p.1 + p.2.1 * g.M + p.2.2 * g.M * g.N

/-- curve_segmentation_mex.cpp, ind2sub: z = n/(M*N), y = (n - z*M*N)/M,
x = n - y*M - z*M*N, with C++ truncating division. -/
def ind2sub (g : Grid) (n : Int) : Pt :=
  let z := n.tdiv (g.M * g.N)
  let y := (n - z * g.M * g.N).tdiv g.M
  let x := n - y * g.M - z * g.M * g.N
  (x, y, z)

/-- curve_segmentation_mex.cpp, make_point: identical arithmetic to ind2sub,
returning a Mesh::Point. -/
def make_point (g : Grid) (n : Int) : Pt := ind2sub g n

/-- The connectivity matrix: an ordered list of offset rows.  connectivity.M
(the number of rows) is the list length. -/
abbrev Conn := List Pt

/-- The number of rows of the connectivity matrix, as an Int (the C++
connectivity.M). -/
def connM (c : Conn) : Int := (c.length : Int)

/-- Row access connectivity(e, 0..2).  A negative or too-large row index is
undefined behaviour in C++; modelled by a default row. -/
def connRow (c : Conn) (e : Int) : Pt := c.getD e.toNat (0, 0, 0)

/-- edgepair_segmentaion.cpp, decompose_edgepair: split an edge number into
(root, edge id) by dividing by connectivity.M. -/
def decompose_edgepair (c : Conn) (edge_num : Int) : Int × Int :=
  (edge_num.tdiv (connM c), edge_num.tmod (connM c))

/-- edgepair_segmentaion.cpp, decompose_pair_of_edgepairs: split an edge-pair
state into (root node, edgepair id) by dividing by connectivity.M squared. -/
def decompose_pair_of_edgepairs (c : Conn) (edgepair_num : Int) : Int × Int :=
  (edgepair_num.tdiv (connM c * connM c), edgepair_num.tmod (connM c * connM c))

/-- edgepair_segmentaion.cpp, points_in_a_edgepair: the three linear indices
(root, q2, q3) of the voxel chain encoded by an edge-pair state. -/
def points_in_a_edgepair (g : Grid) (c : Conn) (edgepair_num : Int) :
    Int × Int × Int :=
  let rp := decompose_pair_of_edgepairs c edgepair_num
  let ee := decompose_edgepair c rp.2
  let p1 := ind2sub g rp.1
  let p2 := padd p1 (connRow c ee.1)
  let p3 := padd p2 (connRow c ee.2)
  (rp.1, sub2ind g p2, sub2ind g p3)

/-- edgepair_segmentaion.cpp, pairpath_to_points: the first two points of the
first state, then the third point of every state of the path in order. -/
def pairpath_to_points (g : Grid) (c : Conn) (path : List Int) : List Pt :=
  (match path with
   | [] => []
   | s :: _ =>
     [make_point g (points_in_a_edgepair g c s).1,
      make_point g (points_in_a_edgepair g c s).2.1]) ++
  path.map (fun s => make_point g (points_in_a_edgepair g c s).2.2)

/-- The regularization and data-term cost functions used by
edgepair_segmentation.  Their implementations (length_cost_functor,
curvature_cost_functor, torsion_cost_functor, PieceWiseConstant) live in
headers outside src/, so they are abstracted as parameters; every theorem
below holds for all of them. -/
structure Costs where
  lineIntegral : Pt → Pt → ℚ
  length : Pt → Pt → ℚ
  curvature : Pt → Pt → Pt → ℚ
  torsion : Pt → Pt → Pt → Pt → ℚ

/-- A neighbor is a pair (destination state id, transition cost). -/
abbrev Neighbor := Int × ℚ

/-- edgepair_segmentaion.cpp: num_edges = (connectivity.M)^2 * numel. -/
def numEdges (g : Grid) (c : Conn) : Int := connM c * connM c * numel g

/-- edgepair_segmentaion.cpp, lines 116-152: the start set.  An edge-pair
state enters it iff its second and third voxels are in bounds, the third
voxel differs from the first (no degenerate back-move), and its first voxel
is labeled 2 (start) in the mesh map.  Listed in increasing id order,
matching the iteration order of the C++ std::set. -/
def startSetPairs (g : Grid) (c : Conn) (mesh : Pt → Int) : List Int :=
  (List.range (numel g).toNat).flatMap (fun (n : ℕ) =>
    (List.range c.length).flatMap (fun (e1 : ℕ) =>
      let p1 := ind2sub g (n : Int)
      let p2 := padd p1 (connRow c (e1 : Int))
      if validind g p2 then
        (List.range c.length).filterMap (fun (e2 : ℕ) =>
          let p3 := padd p2 (connRow c (e2 : Int))
          if p1 = p3 then none
          else if !(validind g p3) then none
          else if mesh p1 = 2 then
            some (sub2ind g p1 * (connM c * connM c)
                  + connM c * (e1 : Int) + (e2 : Int))
          else none)
      else []))

/-- edgepair_segmentaion.cpp, lines 116-152: the end set.  Same loop as the
start set, but a state enters it iff its third voxel is labeled 3 (end). -/
def endSetPairs (g : Grid) (c : Conn) (mesh : Pt → Int) : List Int :=
  (List.range (numel g).toNat).flatMap (fun (n : ℕ) =>
    (List.range c.length).flatMap (fun (e1 : ℕ) =>
      let p1 := ind2sub g (n : Int)
      let p2 := padd p1 (connRow c (e1 : Int))
      if validind g p2 then
        (List.range c.length).filterMap (fun (e2 : ℕ) =>
          let p3 := padd p2 (connRow c (e2 : Int))
          if p1 = p3 then none
          else if !(validind g p3) then none
          else if mesh p3 = 3 then
            some (sub2ind g p1 * (connM c * connM c)
                  + connM c * (e1 : Int) + (e2 : Int))
          else none)
      else []))

/-- edgepair_segmentaion.cpp, lines 161-259, get_neighbors_torsion.
For the super state: one neighbor per start-set state, with cost
line integral of both segments, plus curvature of the triple, plus both
segment lengths (no torsion).  For an ordinary state (root, e1, e2) with
chain p1, p2, p3: for every e3 with p4 = p3 + delta_e3 in bounds and
p4 different from p2, a neighbor (index of (p2, e2, e3), line integral of
segment p3 to p4 + its length cost + torsion of the four points + curvature
of the last three). -/
def get_neighbors_torsion (g : Grid) (c : Conn) (costs : Costs)
    (start_set_pairs : List Int) (e_super : Int) (ep : Int) : List Neighbor :=
  if ep = e_super then
    start_set_pairs.map (fun s =>
      let q := points_in_a_edgepair g c s
      let p2 := ind2sub g q.1
      let p3 := ind2sub g q.2.1
      let p4 := ind2sub g q.2.2
      (s, costs.lineIntegral p2 p3 + costs.lineIntegral p3 p4
          + costs.curvature p2 p3 p4
          + costs.length p2 p3 + costs.length p3 p4))
  else
    let rp := decompose_pair_of_edgepairs c ep
    let ee := decompose_edgepair c rp.2
    let p1 := ind2sub g rp.1
    let p2 := padd p1 (connRow c ee.1)
    let p3 := padd p2 (connRow c ee.2)
    (List.range c.length).filterMap (fun (e3 : ℕ) =>
      let p4 := padd p3 (connRow c (e3 : Int))
      if !(validind g p4) then none
      else if p2 = p4 then none
      else
        some (sub2ind g p2 * (connM c * connM c) + (connM c * ee.2 + (e3 : Int)),
              costs.lineIntegral p3 p4 + costs.length p3 p4
              + costs.torsion p1 p2 p3 p4
              + costs.curvature p2 p3 p4))

/-- Checks that every consecutive pair of states in the list is linked by the
neighbor-generation callback. -/
def chainLinked (nbrs : Int → List Neighbor) : List Int → Bool
  | [] => true
  | [_] => true
  | a :: b :: r => ((nbrs a).any (fun nb => nb.1 == b)) && chainLinked nbrs (b :: r)

/-- Modelled from the spec: the generic shortest-path engine (spec section
4.5) is not under src/.  Only its output contract is modelled: a successful
query returns a nonempty state path that starts at a source state, ends at a
goal state, and in which every consecutive pair of states is a transition
produced by the neighbor-generation callback (parent pointers recorded at
relaxation time). -/
def isSearchPath (nbrs : Int → List Neighbor) (sources goals : List Int)
    (p : List Int) : Bool :=
  (match p.head? with
   | some s => sources.contains s
   | none => false) &&
  chainLinked nbrs p &&
  (match p.getLast? with
   | some t => goals.contains t
   | none => false)

/-- The settings fields of InstanceSettings (parsed outside src/) that the
embedded code reads. -/
structure InstanceSettings where
  length_penalty : ℚ
  curvature_penalty : ℚ
  curvature_power : ℚ
  torsion_penalty : ℚ
  torsion_power : ℚ
  regularization_radius : ℚ
deriving DecidableEq

/-- curve_segmentation_mex.cpp, lines 139-154: the settings-related ASSERT
checks followed by the 2-D torsion downgrade.  Returns the settings actually
used and whether the downgrade warning was printed; an ASSERT failure is the
error case.  ndim is the mesh map's number of MATLAB dimensions (2 for a
single z-slice). -/
def checkAndAdjustSettings (ndim : Nat) (s : InstanceSettings) :
    Except Unit (InstanceSettings × Bool) :=
  if s.regularization_radius > 0 ∧ s.length_penalty ≥ 0 ∧
     s.curvature_penalty ≥ 0 ∧ s.torsion_penalty ≥ 0 then
    if ndim = 2 ∧ s.torsion_penalty ≠ 0 then
      .ok ({ s with torsion_penalty := 0 }, true)
    else
      .ok (s, false)
  else
    .error ()

/-- The three graph liftings of curve_segmentation_mex.cpp. -/
inductive Lifting
  | pairs
  | edges
  | nodes
deriving DecidableEq

/-- curve_segmentation_mex.cpp, lines 156-165 and 294-312: edge pairs when
the torsion penalty is nonzero, otherwise edges when the curvature penalty is
nonzero, otherwise nodes. -/
def chooseLifting (s : InstanceSettings) : Lifting :=
  if s.torsion_penalty ≠ 0 then .pairs
  else if s.curvature_penalty ≠ 0 then .edges
  else .nodes

/-- A real-valued point of the local refinement pass (C++ double triples,
modelled as rationals). -/
abbrev PtQ := ℚ × ℚ × ℚ

/-- local_optimization_mex.cpp, lines 246-255: each zero-based coordinate is
first raised to the magic offset 1/10 and then capped at dimension minus one
minus 1/10. -/
def clampPoint (Mdim Ndim Odim : Int) (p : PtQ) : PtQ :=
  let x := max p.1 (1/10 : ℚ)
  let y := max p.2.1 (1/10 : ℚ)
  let z := max p.2.2 (1/10 : ℚ)
  (min x ((Mdim : ℚ) - 1 - 1/10),
   min y ((Ndim : ℚ) - 1 - 1/10),
   min z ((Odim : ℚ) - 1 - 1/10))

/-- Conversion from one-based MATLAB coordinates (line 242-244). -/
def psubOne (p : PtQ) : PtQ := (p.1 - 1, p.2.1 - 1, p.2.2 - 1)

/-- Conversion back to one-based MATLAB coordinates (lines 379-381). -/
def paddOne (p : PtQ) : PtQ := (p.1 + 1, p.2.1 + 1, p.2.2 + 1)

/-- Failure mode of the refinement entry point in the embedding. -/
inductive RefineError
  | outOfBoundsAccess
deriving DecidableEq

/-- local_optimization_mex.cpp, mexFunction_main, path handling.  From the
source: one-based input points are shifted to zero-based, clamped by
clampPoint, and points 0, 1, n-2, n-1 are marked constant (set_constant), so
they keep their clamped values; the result is shifted back to one-based.
Modelled from the spec: the nonlinear solver backend (spii) is external
(spec section 1, out of scope); since constant points are not free
variables, a conforming solver can move only the interior points, so the
solver is abstracted as an arbitrary function producing the optimized point
list.  The source performs no path-length validation; for fewer than 2
points it indexes points[n-2], points[n-1] out of bounds (undefined
behaviour), modelled as an explicit error. -/
def refine_path (solve : List PtQ → List PtQ) (Mdim Ndim Odim : Int)
    (path : List PtQ) : Except RefineError (List PtQ) :=
  let n := path.length
  if n < 2 then .error .outOfBoundsAccess
  else
    let clamped := path.map (fun p => clampPoint Mdim Ndim Odim (psubOne p))
    let solved := solve clamped
    let result := (List.range n).map (fun i =>
      if i = 0 ∨ i = 1 ∨ i = n - 2 ∨ i = n - 1 then clamped.getD i (0, 0, 0)
      else solved.getD i (clamped.getD i (0, 0, 0)))
    .ok (result.map paddOne)

/-! Helper definitions naming the decoded pieces of an edge-pair state. -/

/-- The root linear index of an edge-pair state. -/
def epRoot (c : Conn) (ep : Int) : Int := (decompose_pair_of_edgepairs c ep).1

/-- The first connectivity index of an edge-pair state. -/
def epE1 (c : Conn) (ep : Int) : Int :=
  (decompose_edgepair c (decompose_pair_of_edgepairs c ep).2).1

/-- The second connectivity index of an edge-pair state. -/
def epE2 (c : Conn) (ep : Int) : Int :=
  (decompose_edgepair c (decompose_pair_of_edgepairs c ep).2).2

/-- First voxel (coordinates) of the chain encoded by an edge-pair state. -/
def epA (g : Grid) (c : Conn) (ep : Int) : Pt := ind2sub g (epRoot c ep)

/-- Second voxel of the chain encoded by an edge-pair state. -/
def epB (g : Grid) (c : Conn) (ep : Int) : Pt :=
  padd (epA g c ep) (connRow c (epE1 c ep))

/-- Third voxel of the chain encoded by an edge-pair state. -/
def epC (g : Grid) (c : Conn) (ep : Int) : Pt :=
  padd (epB g c ep) (connRow c (epE2 c ep))

/-- The three decoded grid points of an edge-pair state, as produced by
make_point on the indices of points_in_a_edgepair. -/
def decodedPts (g : Grid) (c : Conn) (s : Int) : Pt × Pt × Pt :=
  (make_point g (points_in_a_edgepair g c s).1,
   make_point g (points_in_a_edgepair g c s).2.1,
   make_point g (points_in_a_edgepair g c s).2.2)

/-! Concrete instances used in witnesses and counterexamples. -/

/-- A 5 x 1 x 2 grid. -/
def g4 : Grid := ⟨5, 1, 2⟩

/-- Unit steps along the x axis in both directions. -/
def conn4 : Conn := [(1, 0, 0), (-1, 0, 0)]

/-- Label map on g4: start at the left end, end at the right end, a blocked
voxel in the middle of the z = 0 line, every other voxel free. -/
def mesh4 : Pt → Int := fun p =>
  if p = ((0 : Int), (0 : Int), (0 : Int)) then 2
  else if p = ((4 : Int), (0 : Int), (0 : Int)) then 3
  else if p = ((2 : Int), (0 : Int), (0 : Int)) then 0
  else 1

/-- The all-zero cost bundle. -/
def costs0 : Costs :=
  ⟨fun _ _ => 0, fun _ _ => 0, fun _ _ _ => 0, fun _ _ _ _ => 0⟩

/-- A 2 x 1 x 2 grid. -/
def g2 : Grid := ⟨2, 1, 2⟩

/-- A connectivity template containing the zero offset. -/
def conn2 : Conn := [(1, 0, 0), (0, 0, 0)]

/-- Label map on g2: start at the origin, end next to it. -/
def mesh2 : Pt → Int := fun p =>
  if p = ((0 : Int), (0 : Int), (0 : Int)) then 2
  else if p = ((1 : Int), (0 : Int), (0 : Int)) then 3
  else 1

/-- Unit steps along the x axis in both directions. -/
def conn3 : Conn := [(1, 0, 0), (-1, 0, 0)]

/-- Label map on g2 with only the origin labeled start. -/
def mesh3 : Pt → Int := fun p =>
  if p = ((0 : Int), (0 : Int), (0 : Int)) then 2 else 1

/-- A one-based 4-point input path whose first point sits on the volume
boundary. -/
def path4 : List PtQ := [(1, 1, 1), (1, 2, 1), (2, 2, 1), (3, 3, 1)]

/-- A one-based 3-point input path in the interior of a 5 x 5 x 5 volume. -/
def path3 : List PtQ := [(2, 2, 2), (3, 3, 3), (4, 4, 4)]

/-- A one-based 1-point input path. -/
def path1 : List PtQ := [(1, 1, 1)]

/-- A settings instance with a nonzero torsion penalty and valid weights. -/
def s7 : InstanceSettings := ⟨1, 1, 2, 5, 2, 1⟩

/-- The settings s7 after the 2-D torsion downgrade. -/
def s7d : InstanceSettings := { s7 with torsion_penalty := 0 }

/-- A 3 x 4 x 5 grid. -/
def g9 : Grid := ⟨3, 4, 5⟩

/-- Well-formedness of an edge-pair state: it lies in the state space and
its second and third chain voxels are in bounds.  This is the invariant
maintained by the search from the start set onward. -/
def StateWF (g : Grid) (c : Conn) (s : Int) : Prop :=
  0 ≤ s ∧ s < numEdges g c ∧
  validind g (epB g c s) = true ∧ validind g (epC g c s) = true

/-- First voxel of the chain of a start-set candidate (root n). -/
def startA (g : Grid) (n : ℕ) : Pt := ind2sub g (n : Int)

/-- Second voxel of the chain of a start-set candidate. -/
def startB (g : Grid) (c : Conn) (n e1 : ℕ) : Pt :=
  padd (startA g n) (connRow c (e1 : Int))

/-- Third voxel of the chain of a start-set candidate. -/
def startC (g : Grid) (c : Conn) (n e1 e2 : ℕ) : Pt :=
  padd (startB g c n e1) (connRow c (e2 : Int))

theorem points_in_a_edgepair_eq (g : Grid) (c : Conn) (ep : Int) :
    points_in_a_edgepair g c ep =
      (epRoot c ep, sub2ind g (epB g c ep), sub2ind g (epC g c ep)) := rfl

/-! Arithmetic helper lemmas. -/

theorem enc_tdiv {q r b : Int} (hq : 0 ≤ q) (hr : 0 ≤ r) (hrb : r < b) :
    (q * b + r).tdiv b = q := by
  have hb : 0 < b := lt_of_le_of_lt hr hrb
  have hnum : 0 ≤ q * b + r := by positivity
  rw [Int.tdiv_eq_ediv hnum hb.le, show q * b + r = r + q * b by ring,
    Int.add_mul_ediv_right r q hb.ne.symm, Int.ediv_eq_zero_of_lt hr hrb,
    zero_add]

theorem enc_tmod {q r b : Int} (hq : 0 ≤ q) (hr : 0 ≤ r) (hrb : r < b) :
    (q * b + r).tmod b = r := by
  have hb : 0 < b := lt_of_le_of_lt hr hrb
  have hnum : 0 ≤ q * b + r := by positivity
  rw [Int.tmod_eq_emod hnum hb.le, show q * b + r = r + q * b by ring,
    Int.add_mul_emod_self, Int.emod_eq_of_lt hr hrb]

theorem tdiv_nonneg' {a b : Int} (ha : 0 ≤ a) (hb : 0 ≤ b) : 0 ≤ a.tdiv b := by
  rw [Int.tdiv_eq_ediv ha hb]; exact Int.ediv_nonneg ha hb

theorem tmod_nonneg' {a b : Int} (ha : 0 ≤ a) (hb : 0 < b) : 0 ≤ a.tmod b := by
  rw [Int.tmod_eq_emod ha hb.le]; exact Int.emod_nonneg a hb.ne.symm

theorem tmod_lt' {a b : Int} (ha : 0 ≤ a) (hb : 0 < b) : a.tmod b < b := by
  rw [Int.tmod_eq_emod ha hb.le]; exact Int.emod_lt_of_pos a hb

/-- Encoding then decoding a linear index is the identity, with no
side conditions: the three ind2sub outputs recombine linearly. -/
theorem sub2ind_ind2sub (g : Grid) (n : Int) : sub2ind g (ind2sub g n) = n := by
  simp only [sub2ind, ind2sub]
  ring

/-- sub2ind is additive with respect to componentwise point addition. -/
theorem sub2ind_padd (g : Grid) (p d : Pt) :
    sub2ind g (padd p d) = sub2ind g p + sub2ind g d := by
  simp only [sub2ind, padd]
  ring

theorem validind_iff {g : Grid} {p : Pt} :
    validind g p = true ↔
      0 ≤ p.1 ∧ p.1 < g.M ∧ 0 ≤ p.2.1 ∧ p.2.1 < g.N ∧ 0 ≤ p.2.2 ∧ p.2.2 < g.O := by
  simp only [validind, Bool.not_eq_true', Bool.or_eq_false_iff, decide_eq_false_iff_not,
    not_lt]
  omega

theorem sub2ind_nonneg {g : Grid} {p : Pt} (hM : 0 < g.M) (hN : 0 < g.N)
    (hv : validind g p = true) : 0 ≤ sub2ind g p := by
  rcases validind_iff.mp hv with ⟨hx, _, hy, _, hz, _⟩
  have : 0 ≤ p.2.1 * g.M := by positivity
  have : 0 ≤ p.2.2 * g.M * g.N := by positivity
  simp only [sub2ind]
  omega

theorem sub2ind_lt_numel {g : Grid} {p : Pt} (hM : 0 < g.M) (hN : 0 < g.N)
    (hO : 0 < g.O) (hv : validind g p = true) : sub2ind g p < numel g := by
  rcases validind_iff.mp hv with ⟨hx, hxM, hy, hyN, hz, hzO⟩
  simp only [sub2ind, numel]
  nlinarith [mul_le_mul_of_nonneg_right (Int.lt_iff_add_one_le.mp hyN) hM.le,
    mul_le_mul_of_nonneg_right
      (mul_le_mul_of_nonneg_right (Int.lt_iff_add_one_le.mp hzO) hM.le) hN.le]

/-- Decoding an encoded in-bounds coordinate triple gives it back. -/
theorem ind2sub_sub2ind {g : Grid} {p : Pt} (hM : 0 < g.M) (hN : 0 < g.N)
    (hO : 0 < g.O) (hv : validind g p = true) : ind2sub g (sub2ind g p) = p := by
  rcases validind_iff.mp hv with ⟨hx, hxM, hy, hyN, hz, hzO⟩
  obtain ⟨x, y, z⟩ := p
  simp only [sub2ind, ind2sub] at *
  have hxy : 0 ≤ x + y * g.M := by positivity
  have hxyMN : x + y * g.M < g.M * g.N := by
    nlinarith [mul_le_mul_of_nonneg_right (Int.lt_iff_add_one_le.mp hyN) hM.le]
  have hz' : (x + y * g.M + z * g.M * g.N).tdiv (g.M * g.N) = z := by
    rw [show x + y * g.M + z * g.M * g.N = z * (g.M * g.N) + (x + y * g.M) by ring]
    exact enc_tdiv hz hxy hxyMN
  rw [hz']
  have hy' : (x + y * g.M + z * g.M * g.N - z * g.M * g.N).tdiv g.M = y := by
    rw [show x + y * g.M + z * g.M * g.N - z * g.M * g.N = y * g.M + x by ring]
    exact enc_tdiv hy hx hxM
  rw [hy']
  have : x + y * g.M + z * g.M * g.N - y * g.M - z * g.M * g.N = x := by ring
  rw [this]

/-- A linear index in range decodes to an in-bounds coordinate triple. -/
theorem validind_ind2sub {g : Grid} {n : Int} (hM : 0 < g.M) (hN : 0 < g.N)
    (hO : 0 < g.O) (h0 : 0 ≤ n) (hn : n < numel g) :
    validind g (ind2sub g n) = true := by
  have hMN : 0 < g.M * g.N := by positivity
  have hz0 : 0 ≤ n.tdiv (g.M * g.N) := tdiv_nonneg' h0 hMN.le
  have hzO : n.tdiv (g.M * g.N) < g.O := by
    rw [Int.tdiv_eq_ediv h0 hMN.le, Int.ediv_lt_iff_lt_mul hMN]
    calc n < numel g := hn
    _ = g.O * (g.M * g.N) := by simp only [numel]; ring
  set z := n.tdiv (g.M * g.N) with hzdef
  have hrdef : n - z * g.M * g.N = n % (g.M * g.N) := by
    rw [hzdef, Int.tdiv_eq_ediv h0 hMN.le, Int.emod_def]
    ring
  have hr0 : 0 ≤ n - z * g.M * g.N := by rw [hrdef]; exact Int.emod_nonneg n hMN.ne.symm
  have hrMN : n - z * g.M * g.N < g.M * g.N := by rw [hrdef]; exact Int.emod_lt_of_pos n hMN
  set r := n - z * g.M * g.N with hrdef2
  have hy0 : 0 ≤ r.tdiv g.M := tdiv_nonneg' hr0 hM.le
  have hyN : r.tdiv g.M < g.N := by
    rw [Int.tdiv_eq_ediv hr0 hM.le, Int.ediv_lt_iff_lt_mul hM]
    calc r < g.M * g.N := hrMN
    _ = g.N * g.M := by ring
  set y := r.tdiv g.M with hydef
  have hsdef : r - y * g.M = r % g.M := by
    rw [hydef, Int.tdiv_eq_ediv hr0 hM.le, Int.emod_def]
    ring
  have hs0 : 0 ≤ r - y * g.M := by rw [hsdef]; exact Int.emod_nonneg r hM.ne.symm
  have hsM : r - y * g.M < g.M := by rw [hsdef]; exact Int.emod_lt_of_pos r hM
  rw [validind_iff]
  simp only [ind2sub]
  refine ⟨?_, ?_, ?_, ?_, ?_, ?_⟩
  · rw [← hzdef, ← hrdef2, ← hydef]; omega
  · rw [← hzdef, ← hrdef2, ← hydef]; omega
  · rw [← hzdef, ← hrdef2, ← hydef]; exact hy0
  · rw [← hzdef, ← hrdef2, ← hydef]; exact hyN
  · rw [← hzdef]; exact hz0
  · rw [← hzdef]; exact hzO

/-- Decoding an encoded edge-pair state recovers its three components. -/
theorem state_decode {c : Conn} {R e1 e2 : Int} (hR : 0 ≤ R) (he1 : 0 ≤ e1)
    (h1K : e1 < connM c) (he2 : 0 ≤ e2) (h2K : e2 < connM c) :
    epRoot c (R * (connM c * connM c) + (connM c * e1 + e2)) = R ∧
    epE1 c (R * (connM c * connM c) + (connM c * e1 + e2)) = e1 ∧
    epE2 c (R * (connM c * connM c) + (connM c * e1 + e2)) = e2 := by
  have hK : 0 < connM c := lt_of_le_of_lt he1 h1K
  have hr0 : 0 ≤ connM c * e1 + e2 := by positivity
  have hrK : connM c * e1 + e2 < connM c * connM c := by
    nlinarith [mul_le_mul_of_nonneg_left (Int.lt_iff_add_one_le.mp h1K) hK.le]
  have hmod : (R * (connM c * connM c) + (connM c * e1 + e2)).tmod
      (connM c * connM c) = connM c * e1 + e2 := enc_tmod hR hr0 hrK
  refine ⟨?_, ?_, ?_⟩
  · exact enc_tdiv hR hr0 hrK
  · simp only [epE1, decompose_pair_of_edgepairs, decompose_edgepair, hmod]
    rw [show connM c * e1 + e2 = e1 * connM c + e2 by ring]
    exact enc_tdiv he1 he2 h2K
  · simp only [epE2, decompose_pair_of_edgepairs, decompose_edgepair, hmod]
    rw [show connM c * e1 + e2 = e1 * connM c + e2 by ring]
    exact enc_tmod he1 he2 h2K

/-- An encoded edge-pair state with an in-range root is inside the state
space: nonnegative and below num_edges. -/
theorem state_enc_range {g : Grid} {c : Conn} {R e1 e2 : Int} (hR : 0 ≤ R)
    (hRn : R < numel g) (he1 : 0 ≤ e1) (h1K : e1 < connM c) (he2 : 0 ≤ e2)
    (h2K : e2 < connM c) :
    0 ≤ R * (connM c * connM c) + (connM c * e1 + e2) ∧
    R * (connM c * connM c) + (connM c * e1 + e2) < numEdges g c := by
  have hK : 0 < connM c := lt_of_le_of_lt he1 h1K
  have hr0 : 0 ≤ connM c * e1 + e2 := by positivity
  have hrK : connM c * e1 + e2 < connM c * connM c := by
    nlinarith [mul_le_mul_of_nonneg_left (Int.lt_iff_add_one_le.mp h1K) hK.le]
  constructor
  · positivity
  · simp only [numEdges]
    nlinarith [mul_le_mul_of_nonneg_right (Int.lt_iff_add_one_le.mp hRn)
      (mul_pos hK hK).le]

/-- Membership in the start set, characterized by the loop conditions of
edgepair_segmentaion.cpp lines 116-152. -/
theorem mem_startSetPairs {g : Grid} {c : Conn} {mesh : Pt → Int} {s : Int} :
    s ∈ startSetPairs g c mesh ↔
    ∃ n : ℕ, n < (numel g).toNat ∧ ∃ e1 : ℕ, e1 < c.length ∧
      ∃ e2 : ℕ, e2 < c.length ∧
      validind g (padd (ind2sub g (n : Int)) (connRow c (e1 : Int))) = true ∧
      ind2sub g (n : Int) ≠
        padd (padd (ind2sub g (n : Int)) (connRow c (e1 : Int))) (connRow c (e2 : Int)) ∧
      validind g
        (padd (padd (ind2sub g (n : Int)) (connRow c (e1 : Int))) (connRow c (e2 : Int)))
        = true ∧
      mesh (ind2sub g (n : Int)) = 2 ∧
      s = sub2ind g (ind2sub g (n : Int)) * (connM c * connM c)
          + connM c * (e1 : Int) + (e2 : Int) := by
  simp only [startSetPairs, List.mem_flatMap, List.mem_range, List.mem_filterMap]
  constructor
  · rintro ⟨n, hn, e1, he1, hmem⟩
    by_cases hv : validind g (padd (ind2sub g (n : Int)) (connRow c (e1 : Int))) = true
    · rw [if_pos hv, List.mem_filterMap] at hmem
      obtain ⟨e2, he2, heq⟩ := hmem
      rw [List.mem_range] at he2
      refine ⟨n, hn, e1, he1, e2, he2, hv, ?_⟩
      split_ifs at heq with h1 h2 h3
      · simp only [Option.some.injEq] at heq
        simp only [Bool.not_eq_true'] at h2
        exact ⟨h1, by simpa using h2, h3, heq.symm⟩
    · rw [if_neg hv] at hmem
      simp at hmem
  · rintro ⟨n, hn, e1, he1, e2, he2, hv, hne, hv3, hmesh, hs⟩
    refine ⟨n, hn, e1, he1, ?_⟩
    rw [if_pos hv, List.mem_filterMap]
    refine ⟨e2, List.mem_range.mpr he2, ?_⟩
    rw [if_neg hne, if_neg (by simpa using hv3), if_pos hmesh]
    exact congrArg some hs.symm

/-- Membership in the end set, characterized by the loop conditions of
edgepair_segmentaion.cpp lines 116-152. -/
theorem mem_endSetPairs {g : Grid} {c : Conn} {mesh : Pt → Int} {s : Int} :
    s ∈ endSetPairs g c mesh ↔
    ∃ n : ℕ, n < (numel g).toNat ∧ ∃ e1 : ℕ, e1 < c.length ∧
      ∃ e2 : ℕ, e2 < c.length ∧
      validind g (padd (ind2sub g (n : Int)) (connRow c (e1 : Int))) = true ∧
      ind2sub g (n : Int) ≠
        padd (padd (ind2sub g (n : Int)) (connRow c (e1 : Int))) (connRow c (e2 : Int)) ∧
      validind g
        (padd (padd (ind2sub g (n : Int)) (connRow c (e1 : Int))) (connRow c (e2 : Int)))
        = true ∧
      mesh (padd (padd (ind2sub g (n : Int)) (connRow c (e1 : Int))) (connRow c (e2 : Int)))
        = 3 ∧
      s = sub2ind g (ind2sub g (n : Int)) * (connM c * connM c)
          + connM c * (e1 : Int) + (e2 : Int) := by
  simp only [endSetPairs, List.mem_flatMap, List.mem_range, List.mem_filterMap]
  constructor
  · rintro ⟨n, hn, e1, he1, hmem⟩
    by_cases hv : validind g (padd (ind2sub g (n : Int)) (connRow c (e1 : Int))) = true
    · rw [if_pos hv, List.mem_filterMap] at hmem
      obtain ⟨e2, he2, heq⟩ := hmem
      rw [List.mem_range] at he2
      refine ⟨n, hn, e1, he1, e2, he2, hv, ?_⟩
      split_ifs at heq with h1 h2 h3
      · simp only [Option.some.injEq] at heq
        simp only [Bool.not_eq_true'] at h2
        exact ⟨h1, by simpa using h2, h3, heq.symm⟩
    · rw [if_neg hv] at hmem
      simp at hmem
  · rintro ⟨n, hn, e1, he1, e2, he2, hv, hne, hv3, hmesh, hs⟩
    refine ⟨n, hn, e1, he1, ?_⟩
    rw [if_pos hv, List.mem_filterMap]
    refine ⟨e2, List.mem_range.mpr he2, ?_⟩
    rw [if_neg hne, if_neg (by simpa using hv3), if_pos hmesh]
    exact congrArg some hs.symm

/-- Membership in the neighbor list of a non-super state: there is one
neighbor per connectivity row whose fourth chain point is in bounds and
differs from the second chain point. -/
theorem mem_neighbors_iff {g : Grid} {c : Conn} {costs : Costs}
    {start_set_pairs : List Int} {e_super ep : Int} (h : ep ≠ e_super)
    {nb : Neighbor} :
    nb ∈ get_neighbors_torsion g c costs start_set_pairs e_super ep ↔
    ∃ e3 : ℕ, e3 < c.length ∧
      validind g (padd (epC g c ep) (connRow c (e3 : Int))) = true ∧
      epB g c ep ≠ padd (epC g c ep) (connRow c (e3 : Int)) ∧
      nb = (sub2ind g (epB g c ep) * (connM c * connM c)
              + (connM c * epE2 c ep + (e3 : Int)),
            costs.lineIntegral (epC g c ep) (padd (epC g c ep) (connRow c (e3 : Int)))
              + costs.length (epC g c ep) (padd (epC g c ep) (connRow c (e3 : Int)))
              + costs.torsion (epA g c ep) (epB g c ep) (epC g c ep)
                  (padd (epC g c ep) (connRow c (e3 : Int)))
              + costs.curvature (epB g c ep) (epC g c ep)
                  (padd (epC g c ep) (connRow c (e3 : Int)))) := by
  unfold get_neighbors_torsion
  rw [if_neg h, List.mem_filterMap]
  simp only [epA, epB, epC, epRoot, epE1, epE2]
  constructor
  · rintro ⟨e3, he3, heq⟩
    rw [List.mem_range] at he3
    refine ⟨e3, he3, ?_⟩
    split_ifs at heq with h1 h2
    · simp only [Option.some.injEq] at heq
      refine ⟨?_, h2, heq.symm⟩
      simpa using h1
  · rintro ⟨e3, he3, hv4, hne, hnb⟩
    refine ⟨e3, List.mem_range.mpr he3, ?_⟩
    dsimp only []
    rw [if_neg (by simp [hv4]), if_neg hne]
    exact congrArg some hnb.symm

/-- The second connectivity index of a state in the state space is a valid
row index, and so is the first. -/
theorem epE_bounds {c : Conn} {ep : Int} (hK : 0 < connM c) (h0 : 0 ≤ ep) :
    0 ≤ epE1 c ep ∧ epE1 c ep < connM c ∧ 0 ≤ epE2 c ep ∧ epE2 c ep < connM c := by
  have hK2 : 0 < connM c * connM c := by positivity
  have hmod0 : 0 ≤ ep.tmod (connM c * connM c) := tmod_nonneg' h0 hK2
  refine ⟨?_, ?_, ?_, ?_⟩
  · exact tdiv_nonneg' hmod0 hK.le
  · simp only [epE1, decompose_pair_of_edgepairs, decompose_edgepair]
    rw [Int.tdiv_eq_ediv hmod0 hK.le, Int.ediv_lt_iff_lt_mul hK]
    calc ep.tmod (connM c * connM c) < connM c * connM c := tmod_lt' h0 hK2
    _ = connM c * connM c := rfl
  · exact tmod_nonneg' hmod0 hK
  · exact tmod_lt' hmod0 hK

/-- The root of a state in the state space is a valid voxel index. -/
theorem epRoot_bounds {g : Grid} {c : Conn} {ep : Int} (hK : 0 < connM c)
    (h0 : 0 ≤ ep) (h1 : ep < numEdges g c) :
    0 ≤ epRoot c ep ∧ epRoot c ep < numel g := by
  have hK2 : 0 < connM c * connM c := by positivity
  constructor
  · exact tdiv_nonneg' h0 hK2.le
  · simp only [epRoot, decompose_pair_of_edgepairs]
    rw [Int.tdiv_eq_ediv h0 hK2.le, Int.ediv_lt_iff_lt_mul hK2]
    calc ep < numEdges g c := h1
    _ = numel g * (connM c * connM c) := by simp only [numEdges]; ring

/-- The chain voxels of an encoded edge-pair state. -/
theorem epABC_enc {g : Grid} {c : Conn} {R e1 e2 : Int} (hR : 0 ≤ R)
    (he1 : 0 ≤ e1) (h1K : e1 < connM c) (he2 : 0 ≤ e2) (h2K : e2 < connM c) :
    epA g c (R * (connM c * connM c) + (connM c * e1 + e2)) = ind2sub g R ∧
    epB g c (R * (connM c * connM c) + (connM c * e1 + e2)) =
      padd (ind2sub g R) (connRow c e1) ∧
    epC g c (R * (connM c * connM c) + (connM c * e1 + e2)) =
      padd (padd (ind2sub g R) (connRow c e1)) (connRow c e2) := by
  obtain ⟨hroot, he1', he2'⟩ := state_decode (c := c) hR he1 h1K he2 h2K
  refine ⟨?_, ?_, ?_⟩
  · simp only [epA]
    rw [hroot]
  · simp only [epB, epA]
    rw [hroot, he1']
  · simp only [epC, epB, epA]
    rw [hroot, he1', he2']

/-- Decode of a successor produced by expanding a non-super state whose
second chain voxel is in bounds: its chain is the predecessor's chain
shifted by one step along some connectivity row. -/
theorem succ_decode {g : Grid} {c : Conn} {costs : Costs}
    {start_set_pairs : List Int} {e_super ep : Int} {nb : Neighbor}
    (hM : 0 < g.M) (hN : 0 < g.N) (hO : 0 < g.O)
    (hK : 0 < connM c) (h0 : 0 ≤ ep) (hsup : ep ≠ e_super)
    (hB : validind g (epB g c ep) = true)
    (hmem : nb ∈ get_neighbors_torsion g c costs start_set_pairs e_super ep) :
    ∃ e3 : ℕ, e3 < c.length ∧
      validind g (padd (epC g c ep) (connRow c (e3 : Int))) = true ∧
      epB g c ep ≠ padd (epC g c ep) (connRow c (e3 : Int)) ∧
      epRoot c nb.1 = sub2ind g (epB g c ep) ∧
      epA g c nb.1 = epB g c ep ∧
      epB g c nb.1 = epC g c ep ∧
      epC g c nb.1 = padd (epC g c ep) (connRow c (e3 : Int)) ∧
      0 ≤ nb.1 ∧ nb.1 < numEdges g c := by
  obtain ⟨e3, he3, hv4, hne, hnb⟩ := (mem_neighbors_iff hsup).mp hmem
  have hRB : 0 ≤ sub2ind g (epB g c ep) := sub2ind_nonneg hM hN hB
  have hRBlt : sub2ind g (epB g c ep) < numel g := sub2ind_lt_numel hM hN hO hB
  obtain ⟨hE10, hE1K, hE20, hE2K⟩ := epE_bounds (c := c) hK h0
  have he30 : (0 : Int) ≤ (e3 : Int) := Int.natCast_nonneg e3
  have he3K : (e3 : Int) < connM c := by
    simp only [connM]
    exact_mod_cast he3
  have hid : nb.1 = sub2ind g (epB g c ep) * (connM c * connM c)
      + (connM c * epE2 c ep + (e3 : Int)) := by rw [hnb]
  have hroot := (state_decode (c := c) hRB hE20 hE2K he30 he3K).1
  obtain ⟨hA', hB', hC'⟩ := epABC_enc (g := g) (c := c) hRB hE20 hE2K he30 he3K
  obtain ⟨hge, hlt⟩ := state_enc_range (g := g) (c := c) hRB hRBlt hE20 hE2K he30 he3K
  have hBB : ind2sub g (sub2ind g (epB g c ep)) = epB g c ep :=
    ind2sub_sub2ind hM hN hO hB
  rw [hBB] at hA' hB' hC'
  have hBC : padd (epB g c ep) (connRow c (epE2 c ep)) = epC g c ep := rfl
  rw [hBC] at hB' hC'
  refine ⟨e3, he3, hv4, hne, ?_, ?_, ?_, ?_, ?_, ?_⟩
  · rw [hid]; exact hroot
  · rw [hid]; exact hA'
  · rw [hid]; exact hB'
  · rw [hid]; exact hC'
  · rw [hid]; exact hge
  · rw [hid]; exact hlt

/-- A nonzero offset moves a point. -/
theorem padd_ne_self {p d : Pt} (hd : d ≠ ((0 : Int), (0 : Int), (0 : Int))) :
    padd p d ≠ p := by
  obtain ⟨px, py, pz⟩ := p
  obtain ⟨dx, dy, dz⟩ := d
  intro h
  apply hd
  simp only [padd, Prod.mk.injEq] at h ⊢
  omega

/-- A valid row index selects a member of the connectivity list. -/
theorem connRow_mem {c : Conn} {e : Int} (h0 : 0 ≤ e) (hK : e < connM c) :
    connRow c e ∈ c := by
  have hlen : e.toNat < c.length := by
    simp only [connM] at hK
    omega
  simp only [connRow]
  rw [List.getD_eq_getElem _ _ hlen]
  exact List.getElem_mem hlen

/-- A well-formed state forces a nonempty connectivity list. -/
theorem StateWF.connM_pos {g : Grid} {c : Conn} {s : Int} (h : StateWF g c s) :
    0 < connM c := by
  obtain ⟨h0, h1, -, -⟩ := h
  have hc : 0 ≤ connM c := Int.natCast_nonneg _
  rcases lt_or_eq_of_le hc with hpos | hzero
  · exact hpos
  · exfalso
    rw [numEdges, ← hzero] at h1
    simp at h1
    omega

/-- Every member of the start set is a well-formed state. -/
theorem startSetPairs_WF {g : Grid} {c : Conn} {mesh : Pt → Int} {s : Int}
    (hM : 0 < g.M) (hN : 0 < g.N) (hO : 0 < g.O)
    (hs : s ∈ startSetPairs g c mesh) : StateWF g c s := by
  obtain ⟨n, hn, e1, he1, e2, he2, hv2, hne, hv3, hmesh, hsid⟩ :=
    mem_startSetPairs.mp hs
  have hnum : (n : Int) < numel g := by omega
  have hn0 : (0 : Int) ≤ (n : Int) := Int.natCast_nonneg n
  have h10 : (0 : Int) ≤ (e1 : Int) := Int.natCast_nonneg e1
  have h20 : (0 : Int) ≤ (e2 : Int) := Int.natCast_nonneg e2
  have h1K : (e1 : Int) < connM c := by
    simp only [connM]
    exact_mod_cast he1
  have h2K : (e2 : Int) < connM c := by
    simp only [connM]
    exact_mod_cast he2
  rw [sub2ind_ind2sub g (n : Int)] at hsid
  have hsid' : s = (n : Int) * (connM c * connM c)
      + (connM c * (e1 : Int) + (e2 : Int)) := by rw [hsid]; ring
  obtain ⟨hge, hlt⟩ := state_enc_range (g := g) (c := c) hn0 hnum h10 h1K h20 h2K
  obtain ⟨hA', hB', hC'⟩ := epABC_enc (g := g) (c := c) hn0 h10 h1K h20 h2K
  refine ⟨by rw [hsid']; exact hge, by rw [hsid']; exact hlt, ?_, ?_⟩
  · rw [hsid', hB']; exact hv2
  · rw [hsid', hC']; exact hv3

/-- Every member of the end set is a well-formed state. -/
theorem endSetPairs_WF {g : Grid} {c : Conn} {mesh : Pt → Int} {s : Int}
    (hM : 0 < g.M) (hN : 0 < g.N) (hO : 0 < g.O)
    (hs : s ∈ endSetPairs g c mesh) : StateWF g c s := by
  obtain ⟨n, hn, e1, he1, e2, he2, hv2, hne, hv3, hmesh, hsid⟩ :=
    mem_endSetPairs.mp hs
  have hnum : (n : Int) < numel g := by omega
  have hn0 : (0 : Int) ≤ (n : Int) := Int.natCast_nonneg n
  have h10 : (0 : Int) ≤ (e1 : Int) := Int.natCast_nonneg e1
  have h20 : (0 : Int) ≤ (e2 : Int) := Int.natCast_nonneg e2
  have h1K : (e1 : Int) < connM c := by
    simp only [connM]
    exact_mod_cast he1
  have h2K : (e2 : Int) < connM c := by
    simp only [connM]
    exact_mod_cast he2
  rw [sub2ind_ind2sub g (n : Int)] at hsid
  have hsid' : s = (n : Int) * (connM c * connM c)
      + (connM c * (e1 : Int) + (e2 : Int)) := by rw [hsid]; ring
  obtain ⟨hge, hlt⟩ := state_enc_range (g := g) (c := c) hn0 hnum h10 h1K h20 h2K
  obtain ⟨hA', hB', hC'⟩ := epABC_enc (g := g) (c := c) hn0 h10 h1K h20 h2K
  refine ⟨by rw [hsid']; exact hge, by rw [hsid']; exact hlt, ?_, ?_⟩
  · rw [hsid', hB']; exact hv2
  · rw [hsid', hC']; exact hv3

/-- A neighbor of the super state is a member of the start set. -/
theorem mem_neighbors_super {g : Grid} {c : Conn} {costs : Costs}
    {start_set_pairs : List Int} {e_super : Int} {nb : Neighbor}
    (hmem : nb ∈ get_neighbors_torsion g c costs start_set_pairs e_super e_super) :
    nb.1 ∈ start_set_pairs := by
  unfold get_neighbors_torsion at hmem
  rw [if_pos rfl, List.mem_map] at hmem
  obtain ⟨s, hsmem, hseq⟩ := hmem
  rw [← hseq]
  exact hsmem

/-- Expanding a well-formed non-super state yields well-formed states. -/
theorem succ_WF {g : Grid} {c : Conn} {costs : Costs}
    {start_set_pairs : List Int} {e_super ep : Int} {nb : Neighbor}
    (hM : 0 < g.M) (hN : 0 < g.N) (hO : 0 < g.O) (hsup : ep ≠ e_super)
    (hWF : StateWF g c ep)
    (hmem : nb ∈ get_neighbors_torsion g c costs start_set_pairs e_super ep) :
    StateWF g c nb.1 := by
  obtain ⟨e3, he3, hv4, hne, hroot, hA', hB', hC', hge, hlt⟩ :=
    succ_decode hM hN hO hWF.connM_pos hWF.1 hsup hWF.2.2.1 hmem
  refine ⟨hge, hlt, ?_, ?_⟩
  · rw [hB']; exact hWF.2.2.2
  · rw [hC']; exact hv4

/-- The three decoded points of a well-formed state are pairwise distinct in
sequence when no connectivity offset is zero. -/
theorem decoded_distinct {g : Grid} {c : Conn} {s : Int}
    (hM : 0 < g.M) (hN : 0 < g.N) (hO : 0 < g.O) (hWF : StateWF g c s)
    (hnz : ∀ d ∈ c, d ≠ ((0 : Int), (0 : Int), (0 : Int))) :
    make_point g (points_in_a_edgepair g c s).1 ≠
      make_point g (points_in_a_edgepair g c s).2.1 ∧
    make_point g (points_in_a_edgepair g c s).2.1 ≠
      make_point g (points_in_a_edgepair g c s).2.2 := by
  have hK : 0 < connM c := hWF.connM_pos
  obtain ⟨hE10, hE1K, hE20, hE2K⟩ := epE_bounds (c := c) hK hWF.1
  have hrow1 := connRow_mem hE10 hE1K
  have hrow2 := connRow_mem hE20 hE2K
  have hmkB : make_point g (points_in_a_edgepair g c s).2.1 = epB g c s := by
    rw [points_in_a_edgepair_eq]
    exact ind2sub_sub2ind hM hN hO hWF.2.2.1
  have hmkC : make_point g (points_in_a_edgepair g c s).2.2 = epC g c s := by
    rw [points_in_a_edgepair_eq]
    exact ind2sub_sub2ind hM hN hO hWF.2.2.2
  have hmkA : make_point g (points_in_a_edgepair g c s).1 = epA g c s := rfl
  constructor
  · rw [hmkA, hmkB]
    exact (padd_ne_self (hnz _ hrow1)).symm
  · rw [hmkB, hmkC]
    exact (padd_ne_self (hnz _ hrow2)).symm

/-- Along a neighbor-linked chain of states starting from a well-formed
state, every state is well-formed and the decoded third points are pairwise
distinct in sequence. -/
theorem chain_thirds {g : Grid} {c : Conn} {costs : Costs}
    {start_set_pairs : List Int} (hM : 0 < g.M) (hN : 0 < g.N) (hO : 0 < g.O)
    (hnz : ∀ d ∈ c, d ≠ ((0 : Int), (0 : Int), (0 : Int))) :
    ∀ (rest : List Int) (s : Int), StateWF g c s →
    chainLinked (get_neighbors_torsion g c costs start_set_pairs (numEdges g c))
      (s :: rest) = true →
    (∀ t ∈ s :: rest, StateWF g c t) ∧
    List.Chain' (fun a b => a ≠ b)
      ((s :: rest).map (fun t => make_point g (points_in_a_edgepair g c t).2.2)) := by
  intro rest
  induction rest with
  | nil =>
    intro s hWF _
    constructor
    · intro t ht
      rw [List.mem_singleton] at ht
      rw [ht]
      exact hWF
    · exact List.chain'_singleton _
  | cons t r ih =>
    intro s hWF hchain
    simp only [chainLinked, Bool.and_eq_true, List.any_eq_true] at hchain
    obtain ⟨⟨nb, hnbmem, hnbt⟩, hchain'⟩ := hchain
    rw [beq_iff_eq] at hnbt
    have hsup : s ≠ numEdges g c := ne_of_lt hWF.2.1
    have hWFt : StateWF g c t := by
      rw [← hnbt]
      exact succ_WF hM hN hO hsup hWF hnbmem
    obtain ⟨hWFall, hchain''⟩ := ih t hWFt hchain'
    obtain ⟨e3, he3, hv4, hne, hroot, hA', hB', hC', hge, hlt⟩ :=
      succ_decode hM hN hO hWF.connM_pos hWF.1 hsup hWF.2.2.1 hnbmem
    have he30 : (0 : Int) ≤ (e3 : Int) := Int.natCast_nonneg e3
    have he3K : (e3 : Int) < connM c := by
      simp only [connM]
      exact_mod_cast he3
    have hrow3 := connRow_mem he30 he3K
    have hthird_s : make_point g (points_in_a_edgepair g c s).2.2 = epC g c s := by
      rw [points_in_a_edgepair_eq]
      exact ind2sub_sub2ind hM hN hO hWF.2.2.2
    have hthird_t : make_point g (points_in_a_edgepair g c t).2.2 =
        padd (epC g c s) (connRow c (e3 : Int)) := by
      rw [← hnbt, points_in_a_edgepair_eq, hC']
      exact ind2sub_sub2ind hM hN hO (by rw [← hC']; rw [hC']; exact hv4)
    constructor
    · intro u hu
      rcases List.mem_cons.mp hu with hu1 | hu2
      · rw [hu1]; exact hWF
      · exact hWFall u hu2
    · rw [List.map_cons, List.map_cons]
      rw [List.map_cons] at hchain''
      refine List.chain'_cons.mpr ⟨?_, hchain''⟩
      rw [hthird_s, hthird_t]
      exact (padd_ne_self (hnz _ hrow3)).symm

/-- C1: for every non-super edge-pair state decoded into (root, e1, e2) with
voxel chain p0 = root, p1 = p0 + delta_e1, p2 = p1 + delta_e2, the neighbor
expansion enumerates exactly the candidates e3 of the connectivity template
for which p3 = p2 + delta_e3 is in bounds and p3 differs from p1, and assigns
the successor state (p1 as new root, e2, e3) the transition cost equal to the
data-term line integral over segment p2 to p3, plus the length cost of that
segment, plus the torsion cost of the 4-point chain p0, p1, p2, p3, plus the
curvature cost of the 3-point chain p1, p2, p3. -/
theorem C1_edgepair_expansion (g : Grid) (c : Conn) (costs : Costs)
    (start_set_pairs : List Int) (ep : Int)
    (h0 : 0 ≤ ep) (h1 : ep < numEdges g c) (nb : Neighbor) :
    nb ∈ get_neighbors_torsion g c costs start_set_pairs (numEdges g c) ep ↔
    ∃ e3 : ℕ, e3 < c.length ∧
      validind g (padd (epC g c ep) (connRow c (e3 : Int))) = true ∧
      padd (epC g c ep) (connRow c (e3 : Int)) ≠ epB g c ep ∧
      nb = (sub2ind g (epB g c ep) * (connM c * connM c)
              + (connM c * epE2 c ep + (e3 : Int)),
            costs.lineIntegral (epC g c ep) (padd (epC g c ep) (connRow c (e3 : Int)))
              + costs.length (epC g c ep) (padd (epC g c ep) (connRow c (e3 : Int)))
              + costs.torsion (epA g c ep) (epB g c ep) (epC g c ep)
                  (padd (epC g c ep) (connRow c (e3 : Int)))
              + costs.curvature (epB g c ep) (epC g c ep)
                  (padd (epC g c ep) (connRow c (e3 : Int)))) := by
  rw [mem_neighbors_iff (ne_of_lt h1)]
  constructor
  · rintro ⟨e3, he3, hv, hne, hnb⟩
    exact ⟨e3, he3, hv, hne.symm, hnb⟩
  · rintro ⟨e3, he3, hv, hne, hnb⟩
    exact ⟨e3, he3, hv, hne.symm, hnb⟩

/-- C10: for every non-super edge-pair state of the state space whose chain
voxels are in bounds, and every successor produced by its neighbor
expansion, the first two decoded points of the successor state equal the
last two decoded points of the predecessor state, and the third decoded
point of the successor extends the chain by an offset of the connectivity
template, so every neighbor-linked state path decodes to a connected voxel
chain of template moves. -/
theorem C10_chain_consistency (g : Grid) (c : Conn) (costs : Costs)
    (start_set_pairs : List Int) (ep : Int)
    (hM : 0 < g.M) (hN : 0 < g.N) (hO : 0 < g.O)
    (h0 : 0 ≤ ep) (h1 : ep < numEdges g c)
    (hB : validind g (epB g c ep) = true) (hC : validind g (epC g c ep) = true)
    (nb : Neighbor)
    (hmem : nb ∈ get_neighbors_torsion g c costs start_set_pairs (numEdges g c) ep) :
    (decodedPts g c nb.1).1 = (decodedPts g c ep).2.1 ∧
    (decodedPts g c nb.1).2.1 = (decodedPts g c ep).2.2 ∧
    ∃ d ∈ c, (decodedPts g c nb.1).2.2 = padd ((decodedPts g c ep).2.2) d := by
  have hWF : StateWF g c ep := ⟨h0, h1, hB, hC⟩
  obtain ⟨e3, he3, hv4, hne, hroot, hA', hB', hC', hge, hlt⟩ :=
    succ_decode hM hN hO hWF.connM_pos h0 (ne_of_lt h1) hB hmem
  have he30 : (0 : Int) ≤ (e3 : Int) := Int.natCast_nonneg e3
  have he3K : (e3 : Int) < connM c := by
    simp only [connM]
    exact_mod_cast he3
  refine ⟨?_, ?_, connRow c (e3 : Int), connRow_mem he30 he3K, ?_⟩
  · simp only [decodedPts, points_in_a_edgepair_eq]
    rw [hroot]
  · simp only [decodedPts, points_in_a_edgepair_eq]
    rw [hB']
  · simp only [decodedPts, points_in_a_edgepair_eq]
    rw [hC', make_point, make_point, ind2sub_sub2ind hM hN hO hv4,
      ind2sub_sub2ind hM hN hO hC]

/-- C2 (amended): for every successful edge-pair query over a connectivity
template with no zero offset, decoding the returned state path to grid
points (first two points of the first state, then the third point of each
state in order, after the super state is removed) yields a voxel sequence
with no duplicate consecutive entries, and the super-state never appears in
the decoded portion of the path. -/
theorem C2_decode_no_duplicates (g : Grid) (c : Conn) (costs : Costs)
    (mesh : Pt → Int)
    (hM : 0 < g.M) (hN : 0 < g.N) (hO : 0 < g.O)
    (hnz : ∀ d ∈ c, d ≠ ((0 : Int), (0 : Int), (0 : Int)))
    (p : List Int)
    (hp : isSearchPath
        (get_neighbors_torsion g c costs (startSetPairs g c mesh) (numEdges g c))
        [numEdges g c] (endSetPairs g c mesh) p = true) :
    List.Chain' (fun a b => a ≠ b) (pairpath_to_points g c p.tail) ∧
    ∀ t ∈ p.tail, t ≠ numEdges g c := by
  match p with
  | [] => simp [isSearchPath] at hp
  | s :: rest =>
    simp only [isSearchPath, List.head?_cons, Bool.and_eq_true] at hp
    obtain ⟨⟨hsrc, hchain⟩, hlast⟩ := hp
    have hs : s = numEdges g c := by simpa using hsrc
    match rest with
    | [] =>
      refine ⟨by simp [pairpath_to_points], by simp⟩
    | s1 :: rest' =>
      simp only [List.tail_cons]
      rw [hs] at hchain
      simp only [chainLinked, Bool.and_eq_true, List.any_eq_true] at hchain
      obtain ⟨⟨nb, hnbmem, hnbt⟩, hchain'⟩ := hchain
      rw [beq_iff_eq] at hnbt
      have hs1start : s1 ∈ startSetPairs g c mesh := by
        rw [← hnbt]
        exact mem_neighbors_super hnbmem
      have hWF1 : StateWF g c s1 := startSetPairs_WF hM hN hO hs1start
      obtain ⟨hWFall, hthirds⟩ :=
        chain_thirds hM hN hO hnz rest' s1 hWF1 hchain'
      obtain ⟨hAB, hBC⟩ := decoded_distinct hM hN hO hWF1 hnz
      constructor
      · have hdec : pairpath_to_points g c (s1 :: rest') =
            make_point g (points_in_a_edgepair g c s1).1 ::
            make_point g (points_in_a_edgepair g c s1).2.1 ::
            (s1 :: rest').map
              (fun t => make_point g (points_in_a_edgepair g c t).2.2) := rfl
        rw [hdec]
        rw [List.map_cons] at hthirds ⊢
        exact List.chain'_cons.mpr ⟨hAB, List.chain'_cons.mpr ⟨hBC, hthirds⟩⟩
      · intro t ht
        exact ne_of_lt (hWFall t ht).2.1

/-- Decoding the id inserted into the start or end set recovers the root
index and the two chain voxel indices. -/
theorem start_id_decode (g : Grid) (c : Conn) {n e1 e2 : ℕ}
    (he1 : e1 < c.length) (he2 : e2 < c.length) :
    points_in_a_edgepair g c
      (sub2ind g (ind2sub g (n : Int)) * (connM c * connM c)
        + connM c * (e1 : Int) + (e2 : Int)) =
    ((n : Int), sub2ind g (startB g c n e1), sub2ind g (startC g c n e1 e2)) := by
  have h10 : (0 : Int) ≤ (e1 : Int) := Int.natCast_nonneg e1
  have h20 : (0 : Int) ≤ (e2 : Int) := Int.natCast_nonneg e2
  have h1K : (e1 : Int) < connM c := by
    simp only [connM]
    exact_mod_cast he1
  have h2K : (e2 : Int) < connM c := by
    simp only [connM]
    exact_mod_cast he2
  have hn0 : (0 : Int) ≤ (n : Int) := Int.natCast_nonneg n
  rw [sub2ind_ind2sub g (n : Int),
    show (n : Int) * (connM c * connM c) + connM c * (e1 : Int) + (e2 : Int)
      = (n : Int) * (connM c * connM c) + (connM c * (e1 : Int) + (e2 : Int)) by ring,
    points_in_a_edgepair_eq]
  obtain ⟨hroot, -, -⟩ := state_decode (c := c) hn0 h10 h1K h20 h2K
  obtain ⟨hA', hB', hC'⟩ := epABC_enc (g := g) (c := c) hn0 h10 h1K h20 h2K
  rw [hroot, hB', hC']
  rfl

/-- C3 (amended): expanding the super-state produces one neighbor per
edge-pair state that the start-set construction admits: origin voxel labeled
start, second and third chain voxels in bounds, and third voxel different
from the origin (no degenerate back-move).  The cost of such a neighbor is
the line integral of both chain segments plus the curvature of the chain
triple plus the length of both segments, and no torsion cost enters the
super expansion for any torsion functor. -/
theorem C3_super_expansion (g : Grid) (c : Conn) (costs : Costs)
    (mesh : Pt → Int) (hM : 0 < g.M) (hN : 0 < g.N) (hO : 0 < g.O)
    (nb : Neighbor) :
    (nb ∈ get_neighbors_torsion g c costs (startSetPairs g c mesh)
        (numEdges g c) (numEdges g c) ↔
      ∃ n : ℕ, n < (numel g).toNat ∧ ∃ e1 : ℕ, e1 < c.length ∧
        ∃ e2 : ℕ, e2 < c.length ∧
        validind g (startB g c n e1) = true ∧
        startA g n ≠ startC g c n e1 e2 ∧
        validind g (startC g c n e1 e2) = true ∧
        mesh (startA g n) = 2 ∧
        nb = ((n : Int) * (connM c * connM c) + connM c * (e1 : Int) + (e2 : Int),
              costs.lineIntegral (startA g n) (startB g c n e1)
              + costs.lineIntegral (startB g c n e1) (startC g c n e1 e2)
              + costs.curvature (startA g n) (startB g c n e1) (startC g c n e1 e2)
              + costs.length (startA g n) (startB g c n e1)
              + costs.length (startB g c n e1) (startC g c n e1 e2))) ∧
    (∀ tor : Pt → Pt → Pt → Pt → ℚ,
      get_neighbors_torsion g c
          ⟨costs.lineIntegral, costs.length, costs.curvature, tor⟩
          (startSetPairs g c mesh) (numEdges g c) (numEdges g c) =
        get_neighbors_torsion g c costs (startSetPairs g c mesh)
          (numEdges g c) (numEdges g c)) := by
  have hsup_eq : ∀ cs : Costs,
      get_neighbors_torsion g c cs (startSetPairs g c mesh)
        (numEdges g c) (numEdges g c) =
      (startSetPairs g c mesh).map (fun s =>
        (s, cs.lineIntegral (ind2sub g (points_in_a_edgepair g c s).1)
              (ind2sub g (points_in_a_edgepair g c s).2.1)
            + cs.lineIntegral (ind2sub g (points_in_a_edgepair g c s).2.1)
              (ind2sub g (points_in_a_edgepair g c s).2.2)
            + cs.curvature (ind2sub g (points_in_a_edgepair g c s).1)
              (ind2sub g (points_in_a_edgepair g c s).2.1)
              (ind2sub g (points_in_a_edgepair g c s).2.2)
            + cs.length (ind2sub g (points_in_a_edgepair g c s).1)
              (ind2sub g (points_in_a_edgepair g c s).2.1)
            + cs.length (ind2sub g (points_in_a_edgepair g c s).2.1)
              (ind2sub g (points_in_a_edgepair g c s).2.2))) := by
    intro cs
    unfold get_neighbors_torsion
    rw [if_pos rfl]
  constructor
  · rw [hsup_eq costs, List.mem_map]
    constructor
    · rintro ⟨s, hsmem, hseq⟩
      obtain ⟨n, hn, e1, he1, e2, he2, hv2, hne, hv3, hmesh, hsid⟩ :=
        mem_startSetPairs.mp hsmem
      subst hsid
      refine ⟨n, hn, e1, he1, e2, he2, hv2, hne, hv3, hmesh, ?_⟩
      rw [← hseq]
      simp only [start_id_decode g c he1 he2, startA, startB, startC]
      rw [sub2ind_ind2sub g (n : Int),
        ind2sub_sub2ind hM hN hO hv2, ind2sub_sub2ind hM hN hO hv3]
    · rintro ⟨n, hn, e1, he1, e2, he2, hv2, hne, hv3, hmesh, hnb⟩
      simp only [startA, startB, startC] at hv2 hne hv3 hmesh hnb
      refine ⟨sub2ind g (ind2sub g (n : Int)) * (connM c * connM c)
          + connM c * (e1 : Int) + (e2 : Int), ?_, ?_⟩
      · exact mem_startSetPairs.mpr ⟨n, hn, e1, he1, e2, he2, hv2, hne, hv3, hmesh, rfl⟩
      · simp only [start_id_decode g c he1 he2, startA, startB, startC]
        rw [sub2ind_ind2sub g (n : Int),
          ind2sub_sub2ind hM hN hO hv2, ind2sub_sub2ind hM hN hO hv3]
        rw [hnb]
  · intro tor
    rw [hsup_eq costs, hsup_eq ⟨costs.lineIntegral, costs.length, costs.curvature, tor⟩]

/-- C9: for in-bounds coordinates the linear index is the column-major
x + y*M + z*M*N, encoding then decoding returns the coordinates, and
decoding then encoding returns the linear index, for every in-range index. -/
theorem C9_index_roundtrip (g : Grid) (x y z n : Int)
    (hM : 0 < g.M) (hN : 0 < g.N) (hO : 0 < g.O)
    (hx : 0 ≤ x) (hxM : x < g.M) (hy : 0 ≤ y) (hyN : y < g.N)
    (hz : 0 ≤ z) (hzO : z < g.O) (h0 : 0 ≤ n) (hn : n < numel g) :
    sub2ind g (x, y, z) = x + y * g.M + z * g.M * g.N ∧
    ind2sub g (sub2ind g (x, y, z)) = (x, y, z) ∧
    sub2ind g (ind2sub g n) = n := by
  refine ⟨rfl, ?_, sub2ind_ind2sub g n⟩
  exact ind2sub_sub2ind hM hN hO (validind_iff.mpr ⟨hx, hxM, hy, hyN, hz, hzO⟩)

/-- C7: for a 2-D mesh map with nonzero torsion penalty and otherwise valid
settings, the engine zeroes the torsion weight, emits the warning, and
continues with an ok result; and over all inputs, zeroing the torsion weight
in exactly that situation is the only change ever applied to the settings. -/
theorem C7_torsion_downgrade (ndim : Nat) (s : InstanceSettings)
    (hr : s.regularization_radius > 0) (hl : s.length_penalty ≥ 0)
    (hc : s.curvature_penalty ≥ 0) (ht : s.torsion_penalty ≥ 0)
    (h2d : ndim = 2) (htnz : s.torsion_penalty ≠ 0) :
    checkAndAdjustSettings ndim s = .ok ({ s with torsion_penalty := 0 }, true) ∧
    (∀ (ndim' : Nat) (s' t : InstanceSettings) (w : Bool),
      checkAndAdjustSettings ndim' s' = .ok (t, w) →
      (t = s' ∧ w = false) ∨
      (ndim' = 2 ∧ s'.torsion_penalty ≠ 0 ∧
        t = { s' with torsion_penalty := 0 } ∧ w = true)) := by
  constructor
  · unfold checkAndAdjustSettings
    rw [if_pos ⟨hr, hl, hc, ht⟩, if_pos ⟨h2d, htnz⟩]
  · intro ndim' s' t w h
    unfold checkAndAdjustSettings at h
    split_ifs at h with h1 h2
    · simp only [Except.ok.injEq, Prod.mk.injEq] at h
      right
      exact ⟨h2.1, h2.2, h.1.symm, h.2.symm⟩
    · simp only [Except.ok.injEq, Prod.mk.injEq] at h
      left
      exact ⟨h.1.symm, h.2.symm⟩

/-- C8: after the settings check and 2-D downgrade, the edge-pair lifting is
selected iff the torsion penalty is nonzero, the edge lifting iff the
torsion penalty is zero and the curvature penalty nonzero, and the node
lifting iff both are zero. -/
theorem C8_lifting_selection (ndim : Nat) (s t : InstanceSettings) (w : Bool)
    (h : checkAndAdjustSettings ndim s = .ok (t, w)) :
    (chooseLifting t = .pairs ↔ t.torsion_penalty ≠ 0) ∧
    (chooseLifting t = .edges ↔
      (t.torsion_penalty = 0 ∧ t.curvature_penalty ≠ 0)) ∧
    (chooseLifting t = .nodes ↔
      (t.torsion_penalty = 0 ∧ t.curvature_penalty = 0)) := by
  unfold chooseLifting
  split_ifs with h1 h2 <;> simp_all

/-- Closed form of refine_path on paths of at least two points. -/
theorem refine_path_ok (solve : List PtQ → List PtQ) (Mdim Ndim Odim : Int)
    (path : List PtQ) (h2 : 2 ≤ path.length) :
    refine_path solve Mdim Ndim Odim path = .ok
      ((List.range path.length).map (fun i =>
        paddOne (if i = 0 ∨ i = 1 ∨ i = path.length - 2 ∨ i = path.length - 1
          then (path.map (fun p => clampPoint Mdim Ndim Odim (psubOne p))).getD i
            (0, 0, 0)
          else (solve (path.map (fun p => clampPoint Mdim Ndim Odim (psubOne p)))).getD
            i ((path.map
              (fun p => clampPoint Mdim Ndim Odim (psubOne p))).getD i (0, 0, 0))))) := by
  unfold refine_path
  rw [if_neg (by omega)]
  dsimp only []
  rw [List.map_map]
  rfl

/-- C5 (amended): for every solver and every input path of at least two
points, refine_path succeeds and returns the first two and last two points
at the clamped positions of their inputs (one-based input shifted to
zero-based, raised to the 1/10 margin, capped at dimension minus 1.1, and
shifted back); they equal the raw inputs only when the inputs already lie
inside the margins. -/
theorem C5_fixed_endpoints (solve : List PtQ → List PtQ) (Mdim Ndim Odim : Int)
    (path : List PtQ) (h2 : 2 ≤ path.length) :
    ∃ out, refine_path solve Mdim Ndim Odim path = .ok out ∧
      out.length = path.length ∧
      ∀ i : ℕ, i < path.length →
        (i = 0 ∨ i = 1 ∨ i = path.length - 2 ∨ i = path.length - 1) →
        out.getD i (0, 0, 0) =
          paddOne (clampPoint Mdim Ndim Odim (psubOne (path.getD i (0, 0, 0)))) := by
  refine ⟨_, refine_path_ok solve Mdim Ndim Odim path h2, by simp, ?_⟩
  intro i hi hfix
  have hlen : i < ((List.range path.length).map (fun i =>
      paddOne (if i = 0 ∨ i = 1 ∨ i = path.length - 2 ∨ i = path.length - 1
        then (path.map (fun p => clampPoint Mdim Ndim Odim (psubOne p))).getD i (0, 0, 0)
        else (solve (path.map (fun p => clampPoint Mdim Ndim Odim (psubOne p)))).getD
          i ((path.map
            (fun p => clampPoint Mdim Ndim Odim (psubOne p))).getD i (0, 0, 0))))).length := by
    simpa using hi
  rw [List.getD_eq_getElem _ _ hlen, List.getElem_map, List.getElem_range, if_pos hfix]
  have hci : i < (path.map (fun p => clampPoint Mdim Ndim Odim (psubOne p))).length := by
    simpa using hi
  rw [List.getD_eq_getElem _ _ hci, List.getElem_map,
    List.getD_eq_getElem _ _ hi]

/-- C6 (amended): refine_path performs no path-length validation.  A 2- or
3-point path is accepted and every point of it ends up fixed, so the result
is exactly the clamped input; a path with fewer than 2 points triggers the
out-of-bounds access of points[n-2] instead of a clean input-validation
failure. -/
theorem C6_no_length_check (solve : List PtQ → List PtQ) (Mdim Ndim Odim : Int)
    (path : List PtQ) :
    (path.length = 2 ∨ path.length = 3 →
      refine_path solve Mdim Ndim Odim path =
        .ok (path.map (fun p => paddOne (clampPoint Mdim Ndim Odim (psubOne p))))) ∧
    (path.length < 2 →
      refine_path solve Mdim Ndim Odim path = .error .outOfBoundsAccess) := by
  constructor
  · intro hlen
    rw [refine_path_ok solve Mdim Ndim Odim path (by omega)]
    congr 1
    apply List.ext_getElem
    · simp
    · intro i h1 h2'
      simp only [List.getElem_map, List.getElem_range]
      rw [if_pos (by simp at h1; omega)]
      have hci : i < (path.map (fun p => clampPoint Mdim Ndim Odim (psubOne p))).length := by
        simp at h1 ⊢
        omega
      rw [List.getD_eq_getElem _ _ hci, List.getElem_map]
  · intro hlen
    unfold refine_path
    rw [if_pos (by omega)]

/-- C4: evaluation of the code at the failing input.  On a 5 x 1 x 2 grid
whose start region (x = 0) and end region (x = 4) are separated by the
blocked voxel (2, 0, 0) against a unit-step connectivity, the edge-pair
expansion still links a state path from the super state to an end-set state,
and its decode passes through the blocked voxel: the expansion never reads
the label map for intermediate voxels, so the engine reports a path rather
than the no-solution failure the specification requires. -/
theorem C4_blocked_voxels_ignored :
    mesh4 ((2 : Int), (0 : Int), (0 : Int)) = 0 ∧
    isSearchPath
      (get_neighbors_torsion g4 conn4 costs0 (startSetPairs g4 conn4 mesh4)
        (numEdges g4 conn4))
      [numEdges g4 conn4] (endSetPairs g4 conn4 mesh4)
      [numEdges g4 conn4, 0, 4, 8] = true ∧
    ((2 : Int), (0 : Int), (0 : Int)) ∈
      pairpath_to_points g4 conn4 ([numEdges g4 conn4, 0, 4, 8].tail) :=
  ⟨by decide, by decide, by decide⟩

/-- Witness for C1 at a concrete instance: state 0 of the 5 x 1 x 2 grid has
successor state 4 by the characterization. -/
theorem C1_edgepair_expansion_witness :
    ((0 : Int) ≤ 0 ∧ (0 : Int) < numEdges g4 conn4) ∧
    (4 : Int) ∈ (get_neighbors_torsion g4 conn4 costs0
      (startSetPairs g4 conn4 mesh4) (numEdges g4 conn4) 0).map Prod.fst :=
  ⟨⟨by decide, by decide⟩,
   List.mem_map_of_mem Prod.fst
     ((C1_edgepair_expansion g4 conn4 costs0 (startSetPairs g4 conn4 mesh4) 0
        (by decide) (by decide) _).mpr ⟨0, by decide, by decide, by decide, rfl⟩)⟩

/-- Counterexample for C2 as frozen: with a connectivity template containing
the zero offset, a successful query exists whose decoded point sequence has
a duplicate consecutive entry. -/
theorem C2_decode_counterexample :
    isSearchPath
      (get_neighbors_torsion g2 conn2 costs0 (startSetPairs g2 conn2 mesh2)
        (numEdges g2 conn2))
      [numEdges g2 conn2] (endSetPairs g2 conn2 mesh2)
      [numEdges g2 conn2, 1] = true ∧
    pairpath_to_points g2 conn2 ([numEdges g2 conn2, 1].tail) =
      [((0 : Int), (0 : Int), (0 : Int)), ((1 : Int), (0 : Int), (0 : Int)),
       ((1 : Int), (0 : Int), (0 : Int))] ∧
    ¬ List.Chain' (fun a b : Pt => a ≠ b)
        (pairpath_to_points g2 conn2 ([numEdges g2 conn2, 1].tail)) := by
  refine ⟨by decide, by decide, ?_⟩
  intro h
  rw [show pairpath_to_points g2 conn2 ([numEdges g2 conn2, 1].tail) =
      [((0 : Int), (0 : Int), (0 : Int)), ((1 : Int), (0 : Int), (0 : Int)),
       ((1 : Int), (0 : Int), (0 : Int))] by decide] at h
  obtain ⟨-, h2⟩ := List.chain'_cons.mp h
  obtain ⟨hbb, -⟩ := List.chain'_cons.mp h2
  exact hbb rfl

/-- Witness for the amended C2 at a concrete instance. -/
theorem C2_decode_no_duplicates_witness :
    (0 < g4.M ∧ 0 < g4.N ∧ 0 < g4.O ∧
     (∀ d ∈ conn4, d ≠ ((0 : Int), (0 : Int), (0 : Int))) ∧
     isSearchPath
       (get_neighbors_torsion g4 conn4 costs0 (startSetPairs g4 conn4 mesh4)
         (numEdges g4 conn4))
       [numEdges g4 conn4] (endSetPairs g4 conn4 mesh4)
       [numEdges g4 conn4, 0, 4, 8] = true) ∧
    (List.Chain' (fun a b => a ≠ b)
       (pairpath_to_points g4 conn4 ([numEdges g4 conn4, 0, 4, 8].tail)) ∧
     ∀ t ∈ [numEdges g4 conn4, 0, 4, 8].tail, t ≠ numEdges g4 conn4) :=
  ⟨⟨by decide, by decide, by decide, by decide, by decide⟩,
   C2_decode_no_duplicates g4 conn4 costs0 mesh4 (by decide) (by decide)
     (by decide) (by decide) _ (by decide)⟩

/-- Counterexample for C3 as frozen: state 1 on the 2 x 1 x 2 grid with
unit-step connectivity has its origin voxel labeled start and lies in the
state space, yet the super-state expansion produces no neighbor for it
(its third chain voxel coincides with its first, a degenerate back-move
excluded by the start-set construction). -/
theorem C3_super_counterexample :
    mesh3 (epA g2 conn3 1) = 2 ∧
    (0 : Int) ≤ 1 ∧ (1 : Int) < numEdges g2 conn3 ∧
    ∀ nb ∈ get_neighbors_torsion g2 conn3 costs0 (startSetPairs g2 conn3 mesh3)
        (numEdges g2 conn3) (numEdges g2 conn3), nb.1 ≠ 1 := by
  refine ⟨by decide, by decide, by decide, ?_⟩
  intro nb hmem
  have h1 : nb.1 ∈ startSetPairs g2 conn3 mesh3 := mem_neighbors_super hmem
  rw [show startSetPairs g2 conn3 mesh3 = [] by decide] at h1
  simp at h1

/-- Witness for the amended C3 at a concrete instance: the super state of the
5 x 1 x 2 grid expands to start state 0. -/
theorem C3_super_expansion_witness :
    (0 < g4.M ∧ 0 < g4.N ∧ 0 < g4.O) ∧
    (0 : Int) ∈ (get_neighbors_torsion g4 conn4 costs0
      (startSetPairs g4 conn4 mesh4) (numEdges g4 conn4)
      (numEdges g4 conn4)).map Prod.fst :=
  ⟨⟨by decide, by decide, by decide⟩,
   List.mem_map_of_mem Prod.fst
     (((C3_super_expansion g4 conn4 costs0 mesh4 (by decide) (by decide)
         (by decide) _).1).mpr
       ⟨0, by decide, 0, by decide, 0, by decide, by decide, by decide,
        by decide, by decide, rfl⟩)⟩

/-- Counterexample for C5 as frozen: with the first input point on the
volume boundary, the preprocessing clamp moves it by the 1/10 margin before
it is fixed, so the returned first point differs from the input. -/
theorem C5_endpoint_moved_counterexample :
    refine_path (fun l => l) 5 5 1 path4 =
      .ok [((11 : ℚ)/10, (11 : ℚ)/10, (9 : ℚ)/10),
           ((11 : ℚ)/10, 2, (9 : ℚ)/10),
           (2, 2, (9 : ℚ)/10),
           (3, 3, (9 : ℚ)/10)] ∧
    path4.getD 0 (0, 0, 0) = ((1 : ℚ), 1, 1) ∧
    ((11 : ℚ)/10, (11 : ℚ)/10, (9 : ℚ)/10) ≠ ((1 : ℚ), 1, 1) := by
  refine ⟨?_, by norm_num [path4], by norm_num⟩
  rw [refine_path_ok (fun l => l) 5 5 1 path4 (by decide)]
  norm_num [path4, List.range_succ, clampPoint, psubOne, paddOne, max_def, min_def]

/-- Witness for the amended C5 at a concrete instance. -/
theorem C5_fixed_endpoints_witness :
    2 ≤ path4.length ∧
    (∃ out, refine_path (fun l => l) 5 5 1 path4 = .ok out ∧
      out.length = path4.length ∧
      ∀ i : ℕ, i < path4.length →
        (i = 0 ∨ i = 1 ∨ i = path4.length - 2 ∨ i = path4.length - 1) →
        out.getD i (0, 0, 0) =
          paddOne (clampPoint 5 5 1 (psubOne (path4.getD i (0, 0, 0))))) :=
  ⟨by decide, C5_fixed_endpoints (fun l => l) 5 5 1 path4 (by decide)⟩

/-- Counterexample for C6 as frozen: a 3-point path is accepted and fully
processed (returned clamped), not rejected as invalid input. -/
theorem C6_three_points_accepted_counterexample :
    path3.length = 3 ∧
    refine_path (fun l => l) 5 5 5 path3 =
      .ok [(2, 2, 2), (3, 3, 3), (4, 4, 4)] := by
  refine ⟨by decide, ?_⟩
  rw [refine_path_ok (fun l => l) 5 5 5 path3 (by decide)]
  norm_num [path3, List.range_succ, clampPoint, psubOne, paddOne, max_def, min_def]

/-- Witness for the amended C6 at concrete instances: the 3-point path is
returned clamped; the 1-point path hits the out-of-bounds access. -/
theorem C6_no_length_check_witness :
    (path3.length = 2 ∨ path3.length = 3) ∧
    refine_path (fun l => l) 5 5 5 path3 =
      .ok (path3.map (fun p => paddOne (clampPoint 5 5 5 (psubOne p)))) ∧
    path1.length < 2 ∧
    refine_path (fun l => l) 5 5 5 path1 = .error .outOfBoundsAccess :=
  ⟨by decide,
   (C6_no_length_check (fun l => l) 5 5 5 path3).1 (by decide),
   by decide,
   (C6_no_length_check (fun l => l) 5 5 5 path1).2 (by decide)⟩

/-- Witness for C7 at a concrete instance. -/
theorem C7_torsion_downgrade_witness :
    (s7.regularization_radius > 0 ∧ s7.length_penalty ≥ 0 ∧
     s7.curvature_penalty ≥ 0 ∧ s7.torsion_penalty ≥ 0 ∧
     (2 : Nat) = 2 ∧ s7.torsion_penalty ≠ 0) ∧
    checkAndAdjustSettings 2 s7 = .ok ({ s7 with torsion_penalty := 0 }, true) ∧
    (∀ (ndim' : Nat) (s' t : InstanceSettings) (w : Bool),
      checkAndAdjustSettings ndim' s' = .ok (t, w) →
      (t = s' ∧ w = false) ∨
      (ndim' = 2 ∧ s'.torsion_penalty ≠ 0 ∧
        t = { s' with torsion_penalty := 0 } ∧ w = true)) :=
  ⟨⟨by decide, by decide, by decide, by decide, rfl, by decide⟩,
   (C7_torsion_downgrade 2 s7 (by decide) (by decide) (by decide) (by decide)
     rfl (by decide)).1,
   (C7_torsion_downgrade 2 s7 (by decide) (by decide) (by decide) (by decide)
     rfl (by decide)).2⟩

/-- Witness for C8 at a concrete instance: the downgraded settings s7d have
zero torsion and nonzero curvature, so the edge lifting is selected. -/
theorem C8_lifting_selection_witness :
    checkAndAdjustSettings 2 s7 = .ok (s7d, true) ∧
    ((chooseLifting s7d = .pairs ↔ s7d.torsion_penalty ≠ 0) ∧
     (chooseLifting s7d = .edges ↔
       (s7d.torsion_penalty = 0 ∧ s7d.curvature_penalty ≠ 0)) ∧
     (chooseLifting s7d = .nodes ↔
       (s7d.torsion_penalty = 0 ∧ s7d.curvature_penalty = 0))) :=
  ⟨rfl, C8_lifting_selection 2 s7 s7d true rfl⟩

/-- Witness for C9 at a concrete instance. -/
theorem C9_index_roundtrip_witness :
    (0 < g9.M ∧ 0 < g9.N ∧ 0 < g9.O ∧
     (0 : Int) ≤ 2 ∧ (2 : Int) < g9.M ∧ (0 : Int) ≤ 3 ∧ (3 : Int) < g9.N ∧
     (0 : Int) ≤ 4 ∧ (4 : Int) < g9.O ∧ (0 : Int) ≤ 37 ∧ (37 : Int) < numel g9) ∧
    (sub2ind g9 (2, 3, 4) = 2 + 3 * g9.M + 4 * g9.M * g9.N ∧
     ind2sub g9 (sub2ind g9 (2, 3, 4)) = (2, 3, 4) ∧
     sub2ind g9 (ind2sub g9 37) = 37) :=
  ⟨⟨by decide, by decide, by decide, by decide, by decide, by decide, by decide,
    by decide, by decide, by decide, by decide⟩,
   C9_index_roundtrip g9 2 3 4 37 (by decide) (by decide) (by decide) (by decide)
     (by decide) (by decide) (by decide) (by decide) (by decide) (by decide)
     (by decide)⟩

/-- Witness for C10 at a concrete instance: the successor 4 of state 0
continues its chain. -/
theorem C10_chain_consistency_witness :
    (0 < g4.M ∧ 0 < g4.N ∧ 0 < g4.O ∧ (0 : Int) ≤ 0 ∧
     (0 : Int) < numEdges g4 conn4 ∧
     validind g4 (epB g4 conn4 0) = true ∧ validind g4 (epC g4 conn4 0) = true) ∧
    ((decodedPts g4 conn4 4).1 = (decodedPts g4 conn4 0).2.1 ∧
     (decodedPts g4 conn4 4).2.1 = (decodedPts g4 conn4 0).2.2 ∧
     ∃ d ∈ conn4, (decodedPts g4 conn4 4).2.2 =
       padd ((decodedPts g4 conn4 0).2.2) d) :=
  ⟨⟨by decide, by decide, by decide, by decide, by decide, by decide, by decide⟩,
   C10_chain_consistency g4 conn4 costs0 (startSetPairs g4 conn4 mesh4) 0
     (by decide) (by decide) (by decide) (by decide) (by decide) (by decide)
     (by decide) _
     ((mem_neighbors_iff (by decide)).mpr ⟨0, by decide, by decide, by decide, rfl⟩)⟩

end CurveExtraction
